import Mathlib

/-!
# Verification of `pyalma` `trunk/InfoProviders/Bloomberg.py`

Shallow embedding of the two request functions `bdp` (reference request) and
`bdh` (historical request) of the Bloomberg COM wrapper, together with proofs
of the specification claims.

Modelling conventions:
* Security identifiers and field names are `String`s, as in the source.
* Scalar field values and dates are modelled as `Nat` (dates in the source are
  opaque dictionary keys formatted `YYYYMMDD`, which order exactly like the
  corresponding natural numbers; scalar values are opaque and only moved
  around, so any decidable-equality carrier works).
* Python dictionaries are modelled as insertion-ordered association lists
  (`alistSet` replaces in place or appends, `alistGet` looks up), which
  matches dict update semantics; all claims about dictionaries are stated at
  the level of key membership and lookup, which is independent of iteration
  order.
* The vendor session is the one external input: a call is modelled as a
  function of the (finite prefix of the) event stream the session delivers,
  `List (Event M)`.  An event carries its integer type tag and a non-empty
  message sequence (`firstMessage` plus `restMessages`), embedding
  `iterator.Next(); message = iterator.Message` which extracts exactly the
  first message.
* Outcomes distinguish a normal return, the domain `BloombergError`, any other
  Python exception (by name), and divergence (the poll loop never seeing a
  terminal event, in which case `session.NextEvent()` blocks forever).
-/

set_option autoImplicit false
set_option synthInstance.maxSize 1024

namespace Bloomberg

/-! ## Event type constants (lines 23-37 of the source) -/

def UNKNOWN : Int := -1

def ADMIN : Int := 1

def SESSION_STATUS : Int := 2

def SUBSCRIPTION_STATUS : Int := 3

def REQUEST_STATUS : Int := 4

def RESPONSE : Int := 5

def PARTIAL_RESPONSE : Int := 6

def SUBSCRIPTION_DATA : Int := 8

def BLPSERVICE_STATUS : Int := 9

def TIMEOUT : Int := 10

def AUTHORIZATION_STATUS : Int := 11

def RESOLUTION_STATUS : Int := 12

def PUBLISHING_DATA : Int := 13

def TOPIC_STATUS : Int := 14

def TOKEN_STATUS : Int := 15

/-! ## Association lists: Python dict assignment and lookup -/

variable {κ α β γ : Type}

/-- `d[k] = v`: replace in place if the key is present, else append.
This is exactly Python dict assignment (insertion order preserved). -/
def alistSet [DecidableEq κ] : List (κ × α) → κ → α → List (κ × α)
  | [], k, v => [(k, v)]
  | (k', v') :: t, k, v =>
      if k' = k then (k, v) :: t else (k', v') :: alistSet t k v

/-- `d[k]` / `d.get(k)`: first (and, given `alistSet`, only) binding of `k`. -/
def alistGet [DecidableEq κ] : List (κ × α) → κ → Option α
  | [], _ => none
  | (k', v') :: t, k => if k' = k then some v' else alistGet t k

/-- The keys of a dictionary, in insertion order. -/
def alistKeys (l : List (κ × α)) : List κ := l.map Prod.fst

/-! ## Messages and events -/

/-- A named element carrying a value (`field.Name` / `field.Value`). -/
structure BElem where
  name : String
  value : Nat
  deriving DecidableEq

/-- One value of the `securityData` array in a reference (`bdp`) response
message: a `security` name and a `fieldData` element list. -/
structure RefSecurityData where
  security : String
  fieldData : List BElem
  deriving DecidableEq

/-- A reference (`bdp`) response message: `message.GetElement('securityData')`
is an array of per-security blocks. -/
structure RefMessage where
  securityData : List RefSecurityData
  deriving DecidableEq

/-- A historical fieldData entry: a sequence of elements whose element `0`
holds the date and whose elements `1 .. NumElements-1` hold field values. -/
abbrev HistEntry := List BElem

/-- The `securityData` element of a historical (`bdh`) response message:
one security name and an array of per-date entries. -/
structure HistSecurityData where
  security : String
  fieldData : List HistEntry
  deriving DecidableEq

/-- A historical (`bdh`) response message. -/
structure HistMessage where
  securityData : HistSecurityData
  deriving DecidableEq

/-- A session event: an integer type tag and a non-empty message sequence.
The source extracts exactly the first message of each event
(`iterator.Next(); message = iterator.Message`), so the first message is a
separate field and the remaining ones are `restMessages`. -/
structure Event (M : Type) where
  eventType : Int
  firstMessage : M
  restMessages : List M
  deriving DecidableEq

/-- Replace the ignored tail of an event's message sequence by `[]`. -/
def eraseRest {M : Type} (e : Event M) : Event M :=
  { e with restMessages := [] }

/-- Outcome of a call: normal return, the domain `BloombergError`, another
Python exception (by class name), or divergence (no terminal event ever
arrives and `session.NextEvent()` blocks forever). -/
inductive Outcome (A : Type) where
  | ok : A → Outcome A
  | bloombergError : Outcome A
  | pyError : String → Outcome A
  | diverges : Outcome A
  deriving DecidableEq

/-! ## bdp: reference request (source lines 52-110) -/

/-- The accumulated `response` dict of `bdp`: security name ↦ field name ↦ value. -/
abbrev RefResponse := List (String × List (String × Nat))

/-- Source lines 86-92: one `securityData` value.  `response[name] = {}` makes
a fresh field dict which lines 90-92 then fill, so the entry for `name` is
replaced by the dict built from this block's `fieldData` alone. -/
def processRefSecurity (resp : RefResponse) (sd : RefSecurityData) : RefResponse :=
  alistSet resp sd.security
    (sd.fieldData.foldl (fun m f => alistSet m f.name f.value) [])

/-- Source lines 84-92: iterate over the values of `securityData`. -/
def processRefMessage (resp : RefResponse) (msg : RefMessage) : RefResponse :=
  msg.securityData.foldl processRefSecurity resp

/-- One iteration of the `bdp` poll loop (lines 74-93) acting on the fetched
event: only a `RESPONSE` event touches `response` and clears `loop`.
Returns the new accumulator and whether the loop continues. -/
def bdpStep (resp : RefResponse) (e : Event RefMessage) : RefResponse × Bool :=
  if e.eventType = RESPONSE then (processRefMessage resp e.firstMessage, false)
  else (resp, true)

/-- The `bdp` poll loop over the delivered event stream; `none` models the
loop never terminating (the next `session.NextEvent()` blocks forever). -/
def bdpLoop (resp : RefResponse) : List (Event RefMessage) → Option RefResponse
  | [] => none
  | e :: rest =>
      let s := bdpStep resp e
      if s.2 then bdpLoop s.1 rest else some s.1

/-- The index of the assembled `pandas.DataFrame` (lines 94-97): building a
frame from a dict of per-security Series gives one row per field name that
occurs for some security.  Only the member set matters for the claims. -/
def refIndex (resp : RefResponse) : List String :=
  ((resp.map fun p => alistKeys p.2).flatten).dedup

/-- `bdp` (lines 52-110).  `sec_list` and `fld_list` populate the request
(lines 67-70); the assembled result depends only on the vendor's events.
Line 98 `if data:` is the truthiness of the assembled frame, i.e. whether its
index is non-empty; the falsy branch raises `BloombergError` (lines 100-102). -/
def bdp (sec_list fld_list : List String) (events : List (Event RefMessage)) :
    Outcome RefResponse :=
  let _req := (sec_list, fld_list)
  match bdpLoop [] events with
  | none => Outcome.diverges
  | some resp =>
      if (refIndex resp).isEmpty then Outcome.bloombergError else Outcome.ok resp

/-! ## bdh: historical request (source lines 112-188) -/

/-- The accumulated `response` dict of `bdh`:
security name ↦ field name ↦ date ↦ value. -/
abbrev HistResponse := List (String × List (String × List (Nat × Nat)))

/-- Source lines 162-166: `response[name][field.Name][date] = field.Value`
with the `KeyError` handler creating the per-field date dict on first use. -/
def setFieldDate (fmap : List (String × List (Nat × Nat)))
    (fname : String) (date val : Nat) : List (String × List (Nat × Nat)) :=
  match alistGet fmap fname with
  | some dmap => alistSet fmap fname (alistSet dmap date val)
  | none => alistSet fmap fname [(date, val)]

/-- Source lines 157-166 inner loop: one `fieldData` entry.  Element `0` is
read as the date; elements `1 .. NumElements-1` are recorded as field values
(`for n in range(1, fields.NumElements)`), so an entry with at most one
element contributes nothing. -/
def processHistEntry (fmap : List (String × List (Nat × Nat))) :
    HistEntry → List (String × List (Nat × Nat))
  | [] => fmap
  | dateElem :: fields =>
      fields.foldl (fun m f => setFieldDate m f.name dateElem.value f.value) fmap

/-- Source lines 153-166: one historical message.  `response[name] = {}`
(line 155) resets the entry for this security before the entries of this
message are folded in. -/
def processHistMessage (resp : HistResponse) (msg : HistMessage) : HistResponse :=
  alistSet resp msg.securityData.security
    (msg.securityData.fieldData.foldl processHistEntry [])

/-- One iteration of the `bdh` poll loop (lines 142-168): `RESPONSE` and
`PARTIAL_RESPONSE` events are extracted (lines 151-166); only `RESPONSE`
clears `loop` (lines 167-168). -/
def bdhStep (resp : HistResponse) (e : Event HistMessage) : HistResponse × Bool :=
  (if e.eventType = RESPONSE ∨ e.eventType = PARTIAL_RESPONSE then
      processHistMessage resp e.firstMessage
    else resp,
   decide (e.eventType ≠ RESPONSE))

/-- The `bdh` poll loop over the delivered event stream; `none` models the
loop never terminating. -/
def bdhLoop (resp : HistResponse) : List (Event HistMessage) → Option HistResponse
  | [] => none
  | e :: rest =>
      let s := bdhStep resp e
      if s.2 then bdhLoop s.1 rest else some s.1

/-- Whether the assembled `pandas.Panel` holds any data point: panel
construction conforms all item frames to the union of the axes, so the frame
`data[[d for d in data][0]]` (line 176) is truthy exactly when some
(security, field, date) datum exists. -/
def histHasData (resp : HistResponse) : Bool :=
  resp.any fun p => p.2.any fun q => !q.2.isEmpty

/-- All dates appearing in a per-security field map. -/
def datesOfFieldMap (fmap : List (String × List (Nat × Nat))) : List Nat :=
  (fmap.map fun q => alistKeys q.2).flatten

/-- The date axis of the assembled structure: every date recorded anywhere. -/
def histDates (resp : HistResponse) : List Nat :=
  (resp.map fun p => datesOfFieldMap p.2).flatten

/-- The historical request object (lines 131-138): securities and fields are
appended, then `periodicitySelection`, `startDate` and `endDate` are set. -/
structure HistRequest where
  securities : List String
  fields : List String
  periodicity : String
  startDate : Nat
  endDate : Nat
  deriving DecidableEq

/-- The default value of the `end_date` parameter (line 113):
`dt.date.today().strftime('%Y%m%d')` is evaluated once, when the `def`
statement executes at module import, so the default is the import-time date. -/
def bdhDefaultEndDate (moduleImportDate : Nat) : Nat := moduleImportDate

/-- Request assembly of `bdh` (lines 131-138).  The date at call time is not
an input: when `end_dateArg` is absent the request carries the default bound
at module import. -/
def bdhBuildRequest (sec_list fld_list : List String) (start_date : Nat)
    (end_dateArg : Option Nat) (periodicity : String) (moduleImportDate : Nat) :
    HistRequest :=
  { securities := sec_list
    fields := fld_list
    periodicity := periodicity
    startDate := start_date
    endDate := end_dateArg.getD (bdhDefaultEndDate moduleImportDate) }

/-- `bdh` (lines 112-188).  After the loop, lines 169-175 assemble a panel
from the accumulated dict; line 176 indexes the panel at its first item
(`[d for d in data][0]` raises `IndexError` on an empty panel) and tests the
resulting frame's truthiness, raising `BloombergError` when it is empty
(lines 178-180). -/
def bdh (sec_list fld_list : List String) (start_date : Nat)
    (end_dateArg : Option Nat) (periodicity : String) (moduleImportDate : Nat)
    (events : List (Event HistMessage)) : Outcome HistResponse :=
  let _req := bdhBuildRequest sec_list fld_list start_date end_dateArg
    periodicity moduleImportDate
  match bdhLoop [] events with
  | none => Outcome.diverges
  | some resp =>
      match resp with
      | [] => Outcome.pyError "IndexError"
      | _ :: _ =>
          if histHasData resp then Outcome.ok resp else Outcome.bloombergError

/-- Lookup one datum in the accumulated historical structure. -/
def histLookup (resp : HistResponse) (sec fname : String) (date : Nat) :
    Option Nat :=
  (alistGet resp sec).bind fun fm => (alistGet fm fname).bind fun dm =>
    alistGet dm date

/-- Lookup one datum in a per-security field map. -/
def alistGet2 (fmap : List (String × List (Nat × Nat))) (fname : String)
    (date : Nat) : Option Nat :=
  (alistGet fmap fname).bind fun dm => alistGet dm date

/-- Whether a fieldData entry's date (its element `0`) lies in `[lo, hi]`;
entries with no elements carry no date. -/
def entryDateOK (lo hi : Nat) : HistEntry → Bool
  | [] => true
  | d :: _ => decide (lo ≤ d.value) && decide (d.value ≤ hi)

/-! ## Execution traces: session teardown on every exit path

The `try/finally` of both functions (lines 62-110 and 127-188) is modelled by
a trace semantics: every call into the vendor API is a numbered primitive
action recorded in a trace, and a fault oracle may make any one of them raise.
`except BloombergError: raise` (lines 103-104 and 181-182) re-raises the
domain error unchanged, so it is behaviourally the identity.  The `verbose`
prints are pure logging and are not modelled. -/

/-- The vendor API call sites of `bdp` and `bdh`, in source order. -/
inductive Action where
  | start
  | openService
  | getService
  | createRequest
  | appendValue
  | setParam
  | sendRequest
  | nextEvent
  | createMessageIterator
  | iterNext
  | getMessage
  | getElement
  | stop
  deriving DecidableEq

/-- Result of a Python computation: a value, a raised exception (by class
name), or divergence (a vendor call that never returns). -/
inductive PyOut (A : Type) where
  | ret : A → PyOut A
  | exc : String → PyOut A
  | diverge : PyOut A
  deriving DecidableEq

/-- State after running a computation: the next call sequence number, the
trace of vendor calls performed, and the outcome. -/
structure TraceResult (A : Type) where
  nextId : Nat
  trace : List Action
  out : PyOut A
  deriving DecidableEq

/-- Fault oracle: the vendor call with this sequence number (if any) raises. -/
structure Ctx where
  failAt : Option Nat
  deriving DecidableEq

/-- A Python computation over the vendor session. -/
def M (A : Type) : Type := Nat → TraceResult A

def M.pure {A : Type} (a : A) : M A := fun n => ⟨n, [], PyOut.ret a⟩

def M.bind {A B : Type} (x : M A) (f : A → M B) : M B := fun n =>
  let r := x n
  match r.out with
  | PyOut.ret a =>
      let r2 := f a r.nextId
      ⟨r2.nextId, r.trace ++ r2.trace, r2.out⟩
  | PyOut.exc s => ⟨r.nextId, r.trace, PyOut.exc s⟩
  | PyOut.diverge => ⟨r.nextId, r.trace, PyOut.diverge⟩

/-- One vendor API call: recorded in the trace, raising when the fault
oracle names its sequence number. -/
def prim (c : Ctx) (a : Action) : M Unit := fun n =>
  ⟨n + 1, [a], if c.failAt = some n then PyOut.exc "VendorError" else PyOut.ret ()⟩

/-- `raise SomeError(...)`. -/
def pyRaise {A : Type} (excName : String) : M A := fun n => ⟨n, [], PyOut.exc excName⟩

/-- A `session.NextEvent()` call that never returns: the poll loop has
consumed every event the vendor will ever deliver and blocks forever. -/
def blockForever {A : Type} : M A := fun n => ⟨n + 1, [Action.nextEvent], PyOut.diverge⟩

/-- Lines 67-70 / 132-135: `req.GetElement(...).AppendValue(s)` per element. -/
def appendAll (c : Ctx) : List String → M Unit
  | [] => M.pure ()
  | _ :: t => M.bind (prim c Action.appendValue) fun _ => appendAll c t

/-- The `bdp` poll loop (lines 74-93) as a traced computation. -/
def bdpPollM (c : Ctx) : RefResponse → List (Event RefMessage) → M RefResponse
  | _, [] => blockForever
  | resp, e :: rest =>
      M.bind (prim c Action.nextEvent) fun _ =>
      M.bind (prim c Action.createMessageIterator) fun _ =>
      M.bind (prim c Action.iterNext) fun _ =>
      M.bind (prim c Action.getMessage) fun _ =>
      if e.eventType = RESPONSE then
        M.bind (prim c Action.getElement) fun _ =>
        M.pure (processRefMessage resp e.firstMessage)
      else bdpPollM c resp rest

/-- The `try` block of `bdp` (lines 62-102) as a traced computation. -/
def bdpBodyM (c : Ctx) (sec_list fld_list : List String)
    (events : List (Event RefMessage)) : M RefResponse :=
  M.bind (prim c Action.start) fun _ =>
  M.bind (prim c Action.openService) fun _ =>
  M.bind (prim c Action.getService) fun _ =>
  M.bind (prim c Action.createRequest) fun _ =>
  M.bind (appendAll c sec_list) fun _ =>
  M.bind (appendAll c fld_list) fun _ =>
  M.bind (prim c Action.sendRequest) fun _ =>
  M.bind (bdpPollM c [] events) fun resp =>
  if (refIndex resp).isEmpty then pyRaise "BloombergError" else M.pure resp

/-- `try ... except BloombergError: raise ... finally: session.Stop()`.
The `except` clause re-raises unchanged, so only the `finally` matters: when
the body exits (normally or by any exception) `session.Stop()` runs exactly
once; if `Stop` itself raises, its exception replaces the body's outcome.  A
diverging body never exits, so the `finally` never runs. -/
def tryFinallyStop {A : Type} (c : Ctx) (body : M A) : M A := fun n =>
  let r := body n
  match r.out with
  | PyOut.diverge => r
  | bodyOut =>
      let s := prim c Action.stop r.nextId
      ⟨s.nextId, r.trace ++ s.trace,
        match s.out with
        | PyOut.exc msg => PyOut.exc msg
        | _ => bodyOut⟩

/-- `bdp` as a traced computation (lines 52-110). -/
def bdpM (c : Ctx) (sec_list fld_list : List String)
    (events : List (Event RefMessage)) : M RefResponse :=
  tryFinallyStop c (bdpBodyM c sec_list fld_list events)

/-- The `bdh` poll loop (lines 142-168) as a traced computation. -/
def bdhPollM (c : Ctx) : HistResponse → List (Event HistMessage) → M HistResponse
  | _, [] => blockForever
  | resp, e :: rest =>
      M.bind (prim c Action.nextEvent) fun _ =>
      M.bind (prim c Action.createMessageIterator) fun _ =>
      M.bind (prim c Action.iterNext) fun _ =>
      M.bind (prim c Action.getMessage) fun _ =>
      M.bind
        (if e.eventType = RESPONSE ∨ e.eventType = PARTIAL_RESPONSE then
          M.bind (prim c Action.getElement) fun _ =>
          M.pure (processHistMessage resp e.firstMessage)
        else M.pure resp) fun resp2 =>
      if e.eventType = RESPONSE then M.pure resp2 else bdhPollM c resp2 rest

/-- The `try` block of `bdh` (lines 127-180) as a traced computation. -/
def bdhBodyM (c : Ctx) (sec_list fld_list : List String) (start_date : Nat)
    (end_dateArg : Option Nat) (periodicity : String) (moduleImportDate : Nat)
    (events : List (Event HistMessage)) : M HistResponse :=
  let _req := bdhBuildRequest sec_list fld_list start_date end_dateArg
    periodicity moduleImportDate
  M.bind (prim c Action.start) fun _ =>
  M.bind (prim c Action.openService) fun _ =>
  M.bind (prim c Action.getService) fun _ =>
  M.bind (prim c Action.createRequest) fun _ =>
  M.bind (appendAll c sec_list) fun _ =>
  M.bind (appendAll c fld_list) fun _ =>
  M.bind (prim c Action.setParam) fun _ =>
  M.bind (prim c Action.setParam) fun _ =>
  M.bind (prim c Action.setParam) fun _ =>
  M.bind (prim c Action.sendRequest) fun _ =>
  M.bind (bdhPollM c [] events) fun resp =>
  match resp with
  | [] => pyRaise "IndexError"
  | _ :: _ => if histHasData resp then M.pure resp else pyRaise "BloombergError"

/-- `bdh` as a traced computation (lines 112-188). -/
def bdhM (c : Ctx) (sec_list fld_list : List String) (start_date : Nat)
    (end_dateArg : Option Nat) (periodicity : String) (moduleImportDate : Nat)
    (events : List (Event HistMessage)) : M HistResponse :=
  tryFinallyStop c
    (bdhBodyM c sec_list fld_list start_date end_dateArg periodicity
      moduleImportDate events)

/-- Number of `session.Stop()` calls in a trace. -/
def countStop (tr : List Action) : Nat :=
  tr.countP fun a => decide (a = Action.stop)

/-- A computation that never calls `session.Stop()` itself. -/
def NoStop {A : Type} (x : M A) : Prop :=
  ∀ n, countStop ((x n).trace) = 0

/-! ## Association list lemmas -/

theorem alistGet_set_self [DecidableEq κ] (l : List (κ × α)) (k : κ) (v : α) :
    alistGet (alistSet l k v) k = some v := by
  induction l with
  | nil => simp [alistSet, alistGet]
  | cons p t ih =>
      obtain ⟨pk, pv⟩ := p
      by_cases h : pk = k
      · simp [alistSet, alistGet, h]
      · simp [alistSet, alistGet, h, ih]

theorem alistGet_set_ne [DecidableEq κ] (l : List (κ × α)) (k k' : κ) (v : α)
    (h : k' ≠ k) : alistGet (alistSet l k v) k' = alistGet l k' := by
  have h2 : ¬ k = k' := fun he => h he.symm
  induction l with
  | nil => simp [alistSet, alistGet, h2]
  | cons p t ih =>
      obtain ⟨pk, pv⟩ := p
      by_cases hp : pk = k
      · subst hp
        simp [alistSet, alistGet, h2]
      · by_cases hp' : pk = k'
        · simp [alistSet, alistGet, hp, hp', h]
        · simp [alistSet, alistGet, hp, hp', ih]

theorem mem_alistKeys_set [DecidableEq κ] (l : List (κ × α)) (k k' : κ) (v : α) :
    k' ∈ alistKeys (alistSet l k v) ↔ k' = k ∨ k' ∈ alistKeys l := by
  induction l with
  | nil => simp [alistSet, alistKeys]
  | cons p t ih =>
      obtain ⟨pk, pv⟩ := p
      by_cases hp : pk = k
      · subst hp
        have hset : alistSet ((pk, pv) :: t) pk v = (pk, v) :: t := by
          simp [alistSet]
        rw [hset]
        simp only [alistKeys, List.map_cons, List.mem_cons]
        tauto
      · simp only [alistSet, if_neg hp, alistKeys, List.map_cons, List.mem_cons]
        rw [show (alistSet t k v).map Prod.fst = alistKeys (alistSet t k v) from rfl,
          ih]
        simp only [alistKeys]
        tauto

theorem alistSet_ne_nil [DecidableEq κ] (l : List (κ × α)) (k : κ) (v : α) :
    alistSet l k v ≠ [] := by
  cases l with
  | nil => simp [alistSet]
  | cons p t =>
      obtain ⟨pk, pv⟩ := p
      by_cases hp : pk = k <;> simp [alistSet, hp]

theorem alistSet_of_not_mem [DecidableEq κ] (l : List (κ × α)) (k : κ) (v : α)
    (h : k ∉ alistKeys l) : alistSet l k v = l ++ [(k, v)] := by
  induction l with
  | nil => simp [alistSet]
  | cons p t ih =>
      obtain ⟨pk, pv⟩ := p
      simp only [alistKeys, List.map_cons, List.mem_cons] at h
      push_neg at h
      have h1 : ¬ pk = k := fun he => h.1 he.symm
      simp [alistSet, h1, ih (by simpa [alistKeys] using h.2)]

theorem alistGet_eq_none_iff [DecidableEq κ] (l : List (κ × α)) (k : κ) :
    alistGet l k = none ↔ k ∉ alistKeys l := by
  induction l with
  | nil => simp [alistGet, alistKeys]
  | cons p t ih =>
      obtain ⟨pk, pv⟩ := p
      by_cases hp : pk = k
      · simp [alistGet, hp, alistKeys]
      · have h1 : ¬ k = pk := fun he => hp he.symm
        simp only [alistGet, if_neg hp, alistKeys, List.map_cons, List.mem_cons]
        rw [ih]
        simp [alistKeys, h1]

theorem mem_alistSet [DecidableEq κ] (l : List (κ × α)) (k : κ) (v : α)
    (p : κ × α) (h : p ∈ alistSet l k v) : p = (k, v) ∨ p ∈ l := by
  induction l with
  | nil => simpa [alistSet] using h
  | cons q t ih =>
      obtain ⟨qk, qv⟩ := q
      by_cases hq : qk = k
      · simp only [alistSet, if_pos hq, List.mem_cons] at h
        rcases h with h | h
        · exact Or.inl h
        · exact Or.inr (List.mem_cons_of_mem _ h)
      · simp only [alistSet, if_neg hq, List.mem_cons] at h
        rcases h with h | h
        · exact Or.inr (h ▸ List.mem_cons_self _ _)
        · rcases ih h with h2 | h2
          · exact Or.inl h2
          · exact Or.inr (List.mem_cons_of_mem _ h2)

theorem alistGet_some_mem [DecidableEq κ] (l : List (κ × α)) (k : κ) (v : α)
    (h : alistGet l k = some v) : (k, v) ∈ l := by
  induction l with
  | nil => simp [alistGet] at h
  | cons q t ih =>
      obtain ⟨qk, qv⟩ := q
      by_cases hq : qk = k
      · simp only [alistGet, if_pos hq] at h
        subst hq
        obtain rfl : qv = v := by injection h
        exact List.mem_cons_self _ _
      · simp only [alistGet, if_neg hq] at h
        exact List.mem_cons_of_mem _ (ih h)

/-! ## Structural lemmas about the poll loops -/

theorem bdpStep_eraseRest (resp : RefResponse) (e : Event RefMessage) :
    bdpStep resp (eraseRest e) = bdpStep resp e := rfl

theorem bdhStep_eraseRest (resp : HistResponse) (e : Event HistMessage) :
    bdhStep resp (eraseRest e) = bdhStep resp e := rfl

theorem bdpLoop_map_eraseRest (events : List (Event RefMessage)) :
    ∀ resp, bdpLoop resp (events.map eraseRest) = bdpLoop resp events := by
  induction events with
  | nil => intro resp; rfl
  | cons e rest ih =>
      intro resp
      simp only [List.map_cons, bdpLoop, bdpStep_eraseRest]
      by_cases h : (bdpStep resp e).2 <;> simp [h, ih]

theorem bdhLoop_map_eraseRest (events : List (Event HistMessage)) :
    ∀ resp, bdhLoop resp (events.map eraseRest) = bdhLoop resp events := by
  induction events with
  | nil => intro resp; rfl
  | cons e rest ih =>
      intro resp
      simp only [List.map_cons, bdhLoop, bdhStep_eraseRest]
      by_cases h : (bdhStep resp e).2 <;> simp [h, ih]

/-- The historical loop can only terminate by processing a `RESPONSE`
message, which always inserts that message's security, so the accumulated
dict at loop exit is never empty (this is what makes the dead `IndexError`
branch of line 176 unreachable). -/
theorem bdhLoop_some_ne_nil (events : List (Event HistMessage)) :
    ∀ (resp r : HistResponse), bdhLoop resp events = some r → r ≠ [] := by
  induction events with
  | nil => intro resp r h; simp [bdhLoop] at h
  | cons e rest ih =>
      intro resp r h
      by_cases he : e.eventType = RESPONSE
      · simp only [bdhLoop, bdhStep, he, true_or, if_true, ne_eq,
          not_true_eq_false, decide_False, Bool.false_eq_true, if_false,
          Option.some.injEq] at h
        subst h
        exact alistSet_ne_nil _ _ _
      · simp [bdhLoop, bdhStep, he] at h
        exact ih _ _ h

/-- Termination of the `bdp` poll loop happens exactly at the first
`RESPONSE` event, whose first message is the one folded into the (until then
untouched) accumulator. -/
theorem bdpLoop_some_eq (events : List (Event RefMessage)) :
    ∀ (resp r : RefResponse), bdpLoop resp events = some r →
      ∃ e ∈ events, e.eventType = RESPONSE ∧
        r = processRefMessage resp e.firstMessage := by
  induction events with
  | nil => intro resp r h; simp [bdpLoop] at h
  | cons e rest ih =>
      intro resp r h
      by_cases he : e.eventType = RESPONSE
      · simp [bdpLoop, bdpStep, he] at h
        exact ⟨e, List.mem_cons_self _ _, he, h.symm⟩
      · simp [bdpLoop, bdpStep, he] at h
        obtain ⟨e2, he2, hty, hr⟩ := ih _ _ h
        exact ⟨e2, List.mem_cons_of_mem _ he2, hty, hr⟩

/-- Membership in the assembled reference frame's index. -/
theorem mem_refIndex_iff (resp : RefResponse) (f : String) :
    f ∈ refIndex resp ↔ ∃ p ∈ resp, f ∈ alistKeys p.2 := by
  simp only [refIndex, List.mem_dedup, List.mem_flatten, List.mem_map]
  constructor
  · rintro ⟨l, ⟨p, hp, rfl⟩, hf⟩
    exact ⟨p, hp, hf⟩
  · rintro ⟨p, hp, hf⟩
    exact ⟨alistKeys p.2, ⟨p, hp, rfl⟩, hf⟩

/-- Membership in the per-security date lists. -/
theorem mem_datesOfFieldMap_iff (fmap : List (String × List (Nat × Nat)))
    (d : Nat) : d ∈ datesOfFieldMap fmap ↔ ∃ q ∈ fmap, d ∈ alistKeys q.2 := by
  simp only [datesOfFieldMap, List.mem_flatten, List.mem_map]
  constructor
  · rintro ⟨l, ⟨q, hq, rfl⟩, hd⟩
    exact ⟨q, hq, hd⟩
  · rintro ⟨q, hq, hd⟩
    exact ⟨alistKeys q.2, ⟨q, hq, rfl⟩, hd⟩

/-- Membership in the assembled date axis. -/
theorem mem_histDates_iff (resp : HistResponse) (d : Nat) :
    d ∈ histDates resp ↔ ∃ p ∈ resp, d ∈ datesOfFieldMap p.2 := by
  simp only [histDates, List.mem_flatten, List.mem_map]
  constructor
  · rintro ⟨l, ⟨p, hp, rfl⟩, hd⟩
    exact ⟨p, hp, hd⟩
  · rintro ⟨p, hp, hd⟩
    exact ⟨datesOfFieldMap p.2, ⟨p, hp, rfl⟩, hd⟩

/-- Unfolding the historical loop at a terminal event. -/
theorem bdhLoop_cons_response (resp : HistResponse) (e : Event HistMessage)
    (rest : List (Event HistMessage)) (h : e.eventType = RESPONSE) :
    bdhLoop resp (e :: rest) = some (bdhStep resp e).1 := by
  simp [bdhLoop, bdhStep, h]

/-- Unfolding the historical loop at a non-terminal event. -/
theorem bdhLoop_cons_other (resp : HistResponse) (e : Event HistMessage)
    (rest : List (Event HistMessage)) (h : e.eventType ≠ RESPONSE) :
    bdhLoop resp (e :: rest) = bdhLoop (bdhStep resp e).1 rest := by
  simp [bdhLoop, bdhStep, h]

/-- Unfolding the reference loop at a terminal event. -/
theorem bdpLoop_cons_response (resp : RefResponse) (e : Event RefMessage)
    (rest : List (Event RefMessage)) (h : e.eventType = RESPONSE) :
    bdpLoop resp (e :: rest) = some (bdpStep resp e).1 := by
  simp [bdpLoop, bdpStep, h]

/-- Unfolding the reference loop at a non-terminal event. -/
theorem bdpLoop_cons_other (resp : RefResponse) (e : Event RefMessage)
    (rest : List (Event RefMessage)) (h : e.eventType ≠ RESPONSE) :
    bdpLoop resp (e :: rest) = bdpLoop resp rest := by
  simp [bdpLoop, bdpStep, h]

/-! ## Lemmas about the historical extractor -/

theorem alistGet2_setFieldDate_ne (fmap : List (String × List (Nat × Nat)))
    (f fname : String) (dv v date : Nat) (h : ¬(fname = f ∧ date = dv)) :
    alistGet2 (setFieldDate fmap f dv v) fname date =
      alistGet2 fmap fname date := by
  unfold setFieldDate alistGet2
  by_cases hf : fname = f
  · subst hf
    have hd : ¬ date = dv := fun hdd => h ⟨rfl, hdd⟩
    cases hget : alistGet fmap fname with
    | some dm =>
        simp [hget, alistGet_set_self, alistGet_set_ne _ _ _ _ hd]
    | none =>
        have hd2 : ¬ dv = date := fun hdd => hd hdd.symm
        simp [hget, alistGet_set_self, alistGet, hd2]
  · cases hget : alistGet fmap f with
    | some dm => simp [hget, alistGet_set_ne _ _ _ _ hf]
    | none => simp [hget, alistGet_set_ne _ _ _ _ hf]

theorem alistGet2_foldl_setFieldDate (dv : Nat) (fs : List BElem) :
    ∀ (fmap : List (String × List (Nat × Nat))) (fname : String) (date : Nat),
      alistGet2 (fs.foldl (fun m f => setFieldDate m f.name dv f.value) fmap)
          fname date ≠ alistGet2 fmap fname date →
      date = dv ∧ fname ∈ fs.map BElem.name := by
  induction fs with
  | nil => intro fmap fname date h; simp at h
  | cons f fs ih =>
      intro fmap fname date h
      simp only [List.foldl_cons] at h
      by_cases hq : fname = f.name ∧ date = dv
      · exact ⟨hq.2, by simp [hq.1]⟩
      · have heq := alistGet2_setFieldDate_ne fmap f.name fname dv f.value date hq
        rw [← heq] at h
        obtain ⟨hd, hm⟩ := ih (setFieldDate fmap f.name dv f.value) fname date h
        exact ⟨hd, by simp [hm]⟩

theorem mem_dates_setFieldDate (fmap : List (String × List (Nat × Nat)))
    (f : String) (dv v d : Nat)
    (h : d ∈ datesOfFieldMap (setFieldDate fmap f dv v)) :
    d = dv ∨ d ∈ datesOfFieldMap fmap := by
  unfold setFieldDate at h
  cases hget : alistGet fmap f with
  | some dm =>
      rw [hget] at h
      rw [mem_datesOfFieldMap_iff] at h
      obtain ⟨q, hq, hd⟩ := h
      rcases mem_alistSet _ _ _ _ hq with heq | hq2
      · subst heq
        rcases (mem_alistKeys_set dm dv d v).1 hd with h3 | h3
        · exact Or.inl h3
        · exact Or.inr ((mem_datesOfFieldMap_iff _ _).2
            ⟨(f, dm), alistGet_some_mem _ _ _ hget, h3⟩)
      · exact Or.inr ((mem_datesOfFieldMap_iff _ _).2 ⟨q, hq2, hd⟩)
  | none =>
      rw [hget] at h
      rw [mem_datesOfFieldMap_iff] at h
      obtain ⟨q, hq, hd⟩ := h
      rcases mem_alistSet _ _ _ _ hq with heq | hq2
      · subst heq
        simp [alistKeys] at hd
        exact Or.inl hd
      · exact Or.inr ((mem_datesOfFieldMap_iff _ _).2 ⟨q, hq2, hd⟩)

theorem mem_dates_processHistEntry (entry : HistEntry) :
    ∀ (fmap : List (String × List (Nat × Nat))) (d : Nat),
      d ∈ datesOfFieldMap (processHistEntry fmap entry) →
      d ∈ datesOfFieldMap fmap ∨
        ∃ d0 fs, entry = d0 :: fs ∧ d = d0.value := by
  cases entry with
  | nil => intro fmap d h; exact Or.inl h
  | cons d0 fs =>
      suffices hfold : ∀ (fs2 : List BElem) (fmap : List (String × List (Nat × Nat)))
          (d : Nat),
          d ∈ datesOfFieldMap
            (fs2.foldl (fun m f => setFieldDate m f.name d0.value f.value) fmap) →
          d = d0.value ∨ d ∈ datesOfFieldMap fmap by
        intro fmap d h
        rcases hfold fs fmap d h with h2 | h2
        · exact Or.inr ⟨d0, fs, rfl, h2⟩
        · exact Or.inl h2
      intro fs2
      induction fs2 with
      | nil => intro fmap d h; exact Or.inr h
      | cons f fs3 ih =>
          intro fmap d h
          simp only [List.foldl_cons] at h
          rcases ih (setFieldDate fmap f.name d0.value f.value) d h with h2 | h2
          · exact Or.inl h2
          · rcases mem_dates_setFieldDate _ _ _ _ _ h2 with h3 | h3
            · exact Or.inl h3
            · exact Or.inr h3

theorem mem_dates_foldl_processHistEntry (entries : List HistEntry) :
    ∀ (init : List (String × List (Nat × Nat))) (d : Nat),
      d ∈ datesOfFieldMap (entries.foldl processHistEntry init) →
      d ∈ datesOfFieldMap init ∨
        ∃ entry ∈ entries, ∃ d0 fs, entry = d0 :: fs ∧ d = d0.value := by
  induction entries with
  | nil => intro init d h; exact Or.inl h
  | cons en ens ih =>
      intro init d h
      simp only [List.foldl_cons] at h
      rcases ih (processHistEntry init en) d h with h2 | h2
      · rcases mem_dates_processHistEntry en init d h2 with h3 | h3
        · exact Or.inl h3
        · obtain ⟨d0, fs, he, hd⟩ := h3
          exact Or.inr ⟨en, List.mem_cons_self _ _, d0, fs, he, hd⟩
      · obtain ⟨entry, hm, hrest⟩ := h2
        exact Or.inr ⟨entry, List.mem_cons_of_mem _ hm, hrest⟩

theorem mem_histDates_processHistMessage (resp : HistResponse)
    (msg : HistMessage) (d : Nat)
    (h : d ∈ histDates (processHistMessage resp msg)) :
    d ∈ histDates resp ∨
      ∃ entry ∈ msg.securityData.fieldData,
        ∃ d0 fs, entry = d0 :: fs ∧ d = d0.value := by
  unfold processHistMessage at h
  rw [mem_histDates_iff] at h
  obtain ⟨p, hp, hd⟩ := h
  rcases mem_alistSet _ _ _ _ hp with heq | hp2
  · subst heq
    rcases mem_dates_foldl_processHistEntry _ _ _ hd with h2 | h2
    · simp [datesOfFieldMap] at h2
    · exact Or.inr h2
  · exact Or.inl ((mem_histDates_iff _ _).2 ⟨p, hp2, hd⟩)

/-- Loop-level date bound: when every entry the vendor delivers carries a
date within `[lo, hi]`, so does every date in the accumulated structure. -/
theorem bdhLoop_dates_bounded (lo hi : Nat) (events : List (Event HistMessage)) :
    ∀ (resp r : HistResponse),
      bdhLoop resp events = some r →
      (∀ ev ∈ events, ∀ entry ∈ ev.firstMessage.securityData.fieldData,
          entryDateOK lo hi entry = true) →
      (∀ d ∈ histDates resp, lo ≤ d ∧ d ≤ hi) →
      ∀ d ∈ histDates r, lo ≤ d ∧ d ≤ hi := by
  induction events with
  | nil => intro resp r h _ _; simp [bdhLoop] at h
  | cons e rest ih =>
      intro resp r h hev hinv
      have hstep : ∀ d ∈ histDates (bdhStep resp e).1, lo ≤ d ∧ d ≤ hi := by
        intro d hd
        by_cases hor : e.eventType = RESPONSE ∨ e.eventType = PARTIAL_RESPONSE
        · rw [show (bdhStep resp e).1 = processHistMessage resp e.firstMessage by
            simp [bdhStep, hor]] at hd
          rcases mem_histDates_processHistMessage _ _ _ hd with h2 | h2
          · exact hinv d h2
          · obtain ⟨entry, hmem, d0, fs, hent, hd0⟩ := h2
            subst hent
            subst hd0
            have hok := hev e (List.mem_cons_self _ _) _ hmem
            simp [entryDateOK] at hok
            exact hok
        · rw [show (bdhStep resp e).1 = resp by simp [bdhStep, hor]] at hd
          exact hinv d hd
      by_cases hterm : e.eventType = RESPONSE
      · rw [bdhLoop_cons_response _ _ _ hterm] at h
        obtain rfl := Option.some.inj h
        exact hstep
      · rw [bdhLoop_cons_other _ _ _ hterm] at h
        exact ih _ _ h (fun ev hm => hev ev (List.mem_cons_of_mem _ hm)) hstep

/-! ## Lemmas about the reference extractor -/

theorem alistKeys_foldl_fields (fd : List BElem) :
    ∀ (init : List (String × Nat)) (f : String),
      f ∈ alistKeys (fd.foldl (fun m x => alistSet m x.name x.value) init) ↔
        f ∈ alistKeys init ∨ f ∈ fd.map BElem.name := by
  induction fd with
  | nil => intro init f; simp
  | cons x fd ih =>
      intro init f
      simp only [List.foldl_cons, List.map_cons, List.mem_cons]
      rw [ih, mem_alistKeys_set]
      tauto

theorem alistKeys_foldl_processRefSecurity (sds : List RefSecurityData) :
    ∀ (init : RefResponse) (s : String),
      s ∈ alistKeys (sds.foldl processRefSecurity init) ↔
        s ∈ alistKeys init ∨ s ∈ sds.map RefSecurityData.security := by
  induction sds with
  | nil => intro init s; simp
  | cons sd sds ih =>
      intro init s
      simp only [List.foldl_cons, List.map_cons, List.mem_cons]
      rw [ih]
      unfold processRefSecurity
      rw [mem_alistKeys_set]
      tauto

/-- With pairwise distinct security names every insertion is fresh, so the
accumulated dict lists one entry per `securityData` block, in order. -/
theorem foldl_processRefSecurity_nodup (sds : List RefSecurityData) :
    ∀ init : RefResponse,
      (sds.map RefSecurityData.security).Nodup →
      (∀ sd ∈ sds, sd.security ∉ alistKeys init) →
      sds.foldl processRefSecurity init =
        init ++ sds.map fun sd =>
          (sd.security,
            sd.fieldData.foldl (fun m x => alistSet m x.name x.value) []) := by
  induction sds with
  | nil => intro init _ _; simp
  | cons sd sds ih =>
      intro init hnd hdisj
      simp only [List.map_cons, List.nodup_cons] at hnd
      obtain ⟨hhead, htail⟩ := hnd
      have h1 : sd.security ∉ alistKeys init := hdisj sd (List.mem_cons_self _ _)
      have hF : processRefSecurity init sd = init ++
          [(sd.security,
            sd.fieldData.foldl (fun m x => alistSet m x.name x.value) [])] := by
        unfold processRefSecurity
        exact alistSet_of_not_mem _ _ _ h1
      rw [List.foldl_cons, hF]
      have hdisj2 : ∀ sd2 ∈ sds, sd2.security ∉ alistKeys (init ++
          [(sd.security,
            sd.fieldData.foldl (fun m x => alistSet m x.name x.value) [])]) := by
        intro sd2 hm
        simp only [alistKeys, List.map_append, List.mem_append, List.map_cons,
          List.map_nil, List.mem_singleton, not_or]
        constructor
        · exact hdisj sd2 (List.mem_cons_of_mem _ hm)
        · intro heq
          exact hhead (heq ▸ List.mem_map_of_mem RefSecurityData.security hm)
      rw [ih _ htail hdisj2]
      simp [List.append_assoc]

/-! ## Lemmas about execution traces -/

theorem countStop_append (t1 t2 : List Action) :
    countStop (t1 ++ t2) = countStop t1 + countStop t2 :=
  List.countP_append _ _ _

theorem noStop_pure {A : Type} (a : A) : NoStop (M.pure a) := by
  intro n
  simp [M.pure, countStop]

theorem noStop_prim (c : Ctx) (a : Action) (h : a ≠ Action.stop) :
    NoStop (prim c a) := by
  intro n
  simp [prim, countStop, List.countP_cons, h]

theorem noStop_pyRaise {A : Type} (s : String) : NoStop (pyRaise (A := A) s) := by
  intro n
  simp [pyRaise, countStop]

theorem noStop_blockForever {A : Type} : NoStop (blockForever (A := A)) := by
  intro n
  simp [blockForever, countStop, List.countP_cons]

theorem noStop_bind {A B : Type} (x : M A) (f : A → M B)
    (hx : NoStop x) (hf : ∀ a, NoStop (f a)) : NoStop (M.bind x f) := by
  intro n
  unfold M.bind
  cases hout : (x n).out with
  | ret a => simp [hout, countStop_append, hx n, hf a ((x n).nextId)]
  | exc s => simp [hout, hx n]
  | diverge => simp [hout, hx n]

theorem noStop_appendAll (c : Ctx) (l : List String) : NoStop (appendAll c l) := by
  induction l with
  | nil => exact noStop_pure ()
  | cons s t ih =>
      exact noStop_bind _ _ (noStop_prim c _ (by decide)) fun _ => ih

theorem noStop_bdpPollM (c : Ctx) (events : List (Event RefMessage)) :
    ∀ resp, NoStop (bdpPollM c resp events) := by
  induction events with
  | nil => intro resp; exact noStop_blockForever
  | cons e rest ih =>
      intro resp
      unfold bdpPollM
      refine noStop_bind _ _ (noStop_prim c _ (by decide)) fun _ => ?_
      refine noStop_bind _ _ (noStop_prim c _ (by decide)) fun _ => ?_
      refine noStop_bind _ _ (noStop_prim c _ (by decide)) fun _ => ?_
      refine noStop_bind _ _ (noStop_prim c _ (by decide)) fun _ => ?_
      by_cases he : e.eventType = RESPONSE
      · rw [if_pos he]
        exact noStop_bind _ _ (noStop_prim c _ (by decide)) fun _ => noStop_pure _
      · rw [if_neg he]
        exact ih resp

theorem noStop_bdhPollM (c : Ctx) (events : List (Event HistMessage)) :
    ∀ resp, NoStop (bdhPollM c resp events) := by
  induction events with
  | nil => intro resp; exact noStop_blockForever
  | cons e rest ih =>
      intro resp
      unfold bdhPollM
      refine noStop_bind _ _ (noStop_prim c _ (by decide)) fun _ => ?_
      refine noStop_bind _ _ (noStop_prim c _ (by decide)) fun _ => ?_
      refine noStop_bind _ _ (noStop_prim c _ (by decide)) fun _ => ?_
      refine noStop_bind _ _ (noStop_prim c _ (by decide)) fun _ => ?_
      refine noStop_bind _ _ ?_ fun resp2 => ?_
      · by_cases hor : e.eventType = RESPONSE ∨ e.eventType = PARTIAL_RESPONSE
        · rw [if_pos hor]
          exact noStop_bind _ _ (noStop_prim c _ (by decide)) fun _ => noStop_pure _
        · rw [if_neg hor]
          exact noStop_pure _
      · by_cases he : e.eventType = RESPONSE
        · rw [if_pos he]
          exact noStop_pure _
        · rw [if_neg he]
          exact ih resp2

theorem noStop_bdpBodyM (c : Ctx) (sec_list fld_list : List String)
    (events : List (Event RefMessage)) :
    NoStop (bdpBodyM c sec_list fld_list events) := by
  unfold bdpBodyM
  refine noStop_bind _ _ (noStop_prim c _ (by decide)) fun _ => ?_
  refine noStop_bind _ _ (noStop_prim c _ (by decide)) fun _ => ?_
  refine noStop_bind _ _ (noStop_prim c _ (by decide)) fun _ => ?_
  refine noStop_bind _ _ (noStop_prim c _ (by decide)) fun _ => ?_
  refine noStop_bind _ _ (noStop_appendAll c _) fun _ => ?_
  refine noStop_bind _ _ (noStop_appendAll c _) fun _ => ?_
  refine noStop_bind _ _ (noStop_prim c _ (by decide)) fun _ => ?_
  refine noStop_bind _ _ (noStop_bdpPollM c _ _) fun resp => ?_
  cases h : (refIndex resp).isEmpty
  · simp only [h, Bool.false_eq_true, if_false]
    exact noStop_pure _
  · simp only [h, if_true]
    exact noStop_pyRaise _

theorem noStop_bdhBodyM (c : Ctx) (sec_list fld_list : List String)
    (start_date : Nat) (end_dateArg : Option Nat) (periodicity : String)
    (moduleImportDate : Nat) (events : List (Event HistMessage)) :
    NoStop (bdhBodyM c sec_list fld_list start_date end_dateArg periodicity
      moduleImportDate events) := by
  unfold bdhBodyM
  refine noStop_bind _ _ (noStop_prim c _ (by decide)) fun _ => ?_
  refine noStop_bind _ _ (noStop_prim c _ (by decide)) fun _ => ?_
  refine noStop_bind _ _ (noStop_prim c _ (by decide)) fun _ => ?_
  refine noStop_bind _ _ (noStop_prim c _ (by decide)) fun _ => ?_
  refine noStop_bind _ _ (noStop_appendAll c _) fun _ => ?_
  refine noStop_bind _ _ (noStop_appendAll c _) fun _ => ?_
  refine noStop_bind _ _ (noStop_prim c _ (by decide)) fun _ => ?_
  refine noStop_bind _ _ (noStop_prim c _ (by decide)) fun _ => ?_
  refine noStop_bind _ _ (noStop_prim c _ (by decide)) fun _ => ?_
  refine noStop_bind _ _ (noStop_prim c _ (by decide)) fun _ => ?_
  refine noStop_bind _ _ (noStop_bdhPollM c _ _) fun resp => ?_
  cases resp with
  | nil => exact noStop_pyRaise _
  | cons p t =>
      cases h : histHasData (p :: t)
      · simp only [h, Bool.false_eq_true, if_false]
        exact noStop_pyRaise _
      · simp only [h, if_true]
        exact noStop_pure _

/-- The `finally` block contributes the only `Stop` of the whole call: when
the body exits at all, the wrapped computation's trace has exactly one. -/
theorem countStop_tryFinallyStop {A : Type} (c : Ctx) (body : M A) (n : Nat)
    (hbody : NoStop body)
    (h : ((tryFinallyStop c body) n).out ≠ PyOut.diverge) :
    countStop (((tryFinallyStop c body) n).trace) = 1 := by
  unfold tryFinallyStop at h ⊢
  have hb : ∀ a ∈ (body n).trace, ¬ a = Action.stop := by
    simpa [countStop, List.countP_eq_zero] using hbody n
  cases hout : (body n).out with
  | diverge => simp [hout] at h
  | ret a =>
      simp only [hout]
      simp [countStop_append, prim, countStop, List.countP_cons,
        List.countP_eq_zero]
      exact hb
  | exc s =>
      simp only [hout]
      simp [countStop_append, prim, countStop, List.countP_cons,
        List.countP_eq_zero]
      exact hb

/-! ## The claims -/

/-- C1: for every `bdp` or `bdh` call whose poll loop terminates, an empty
assembled table raises the domain `BloombergError` and a non-empty one is
returned; on this assembly path no other outcome is possible.  In particular
`bdh`'s `IndexError` branch (line 176 on an empty panel) is unreachable,
because a loop that terminated has processed a `RESPONSE` and so inserted at
least one security. -/
theorem C1_empty_result_raises_bloomberg_error :
    (∀ (sec fld : List String) (events : List (Event RefMessage))
        (resp : RefResponse), bdpLoop [] events = some resp →
        ((refIndex resp).isEmpty = true →
          bdp sec fld events = Outcome.bloombergError) ∧
        ((refIndex resp).isEmpty = false →
          bdp sec fld events = Outcome.ok resp)) ∧
    (∀ (sec fld : List String) (sd : Nat) (ed : Option Nat) (per : String)
        (mid : Nat) (events : List (Event HistMessage)) (resp : HistResponse),
        bdhLoop [] events = some resp →
        (histHasData resp = false →
          bdh sec fld sd ed per mid events = Outcome.bloombergError) ∧
        (histHasData resp = true →
          bdh sec fld sd ed per mid events = Outcome.ok resp)) := by
  constructor
  · intro sec fld events resp h
    constructor
    · intro he
      simp [bdp, h, he]
    · intro he
      simp [bdp, h, he]
  · intro sec fld sd ed per mid events resp h
    have hne : resp ≠ [] := bdhLoop_some_ne_nil _ _ _ h
    constructor
    · intro he
      cases resp with
      | nil => exact absurd rfl hne
      | cons p t => simp [bdh, h, he]
    · intro he
      cases resp with
      | nil => exact absurd rfl hne
      | cons p t => simp [bdh, h, he]

/-- Witness for C1: a `RESPONSE` event carrying zero securityData values
assembles the empty table, and the call raises the domain error. -/
theorem C1_witness :
    bdpLoop [] [⟨RESPONSE, ⟨[]⟩, []⟩] = some [] ∧
    (refIndex ([] : RefResponse)).isEmpty = true ∧
    bdp ["C US Equity"] ["PX_LAST"] [⟨RESPONSE, ⟨[]⟩, []⟩] =
      Outcome.bloombergError :=
  ⟨rfl, rfl,
    (C1_empty_result_raises_bloomberg_error.1 ["C US Equity"] ["PX_LAST"]
      [⟨RESPONSE, ⟨[]⟩, []⟩] [] rfl).1 rfl⟩

/-- C2 counterexample: the date-1 datum delivered for security "A" in an
earlier `PARTIAL_RESPONSE` is absent from the structure returned after the
later `RESPONSE` for the same security, because line 155
`response[name] = {}` resets the security's entry on every processed
message. -/
theorem C2_counterexample :
    bdh ["A"] ["PX"] 1 (some 2) "DAILY" 0
        [⟨PARTIAL_RESPONSE, ⟨⟨"A", [[⟨"d", 1⟩, ⟨"PX", 10⟩]]⟩⟩, []⟩,
         ⟨RESPONSE, ⟨⟨"A", [[⟨"d", 2⟩, ⟨"PX", 20⟩]]⟩⟩, []⟩] =
      Outcome.ok [("A", [("PX", [(2, 20)])])] ∧
    histLookup [("A", [("PX", [(2, 20)])])] "A" "PX" 1 = none :=
  ⟨rfl, rfl⟩

/-- C2 amended: payload accumulated from earlier `PARTIAL_RESPONSE` events
persists across later events that carry a different security, but a later
`RESPONSE` or `PARTIAL_RESPONSE` for the same security resets that
security's entry and rebuilds it from the new message alone. -/
theorem C2_amended_accumulation_per_security :
    (∀ (resp : HistResponse) (e : Event HistMessage) (sec fname : String)
        (d : Nat),
        sec ≠ e.firstMessage.securityData.security →
        histLookup (bdhStep resp e).1 sec fname d =
          histLookup resp sec fname d) ∧
    (∀ (resp : HistResponse) (msg : HistMessage),
        alistGet (processHistMessage resp msg) msg.securityData.security =
          some (msg.securityData.fieldData.foldl processHistEntry [])) := by
  constructor
  · intro resp e sec fname d h
    by_cases hor : e.eventType = RESPONSE ∨ e.eventType = PARTIAL_RESPONSE
    · rw [show (bdhStep resp e).1 = processHistMessage resp e.firstMessage by
        simp [bdhStep, hor]]
      unfold histLookup processHistMessage
      rw [alistGet_set_ne _ _ _ _ h]
    · rw [show (bdhStep resp e).1 = resp by simp [bdhStep, hor]]
  · intro resp msg
    unfold processHistMessage
    exact alistGet_set_self _ _ _

/-- Witness for C2's amended statement: an event for security "A" leaves the
accumulated datum of security "B" untouched. -/
theorem C2_witness :
    ("B" : String) ≠ "A" ∧
    histLookup (bdhStep [("B", [("PX", [(7, 3)])])]
        ⟨RESPONSE, ⟨⟨"A", [[⟨"d", 2⟩, ⟨"PX", 20⟩]]⟩⟩, []⟩).1 "B" "PX" 7 =
      histLookup [("B", [("PX", [(7, 3)])])] "B" "PX" 7 :=
  ⟨by decide,
    C2_amended_accumulation_per_security.1 [("B", [("PX", [(7, 3)])])]
      ⟨RESPONSE, ⟨⟨"A", [[⟨"d", 2⟩, ⟨"PX", 20⟩]]⟩⟩, []⟩ "B" "PX" 7 (by decide)⟩

/-- C3: the `end_date` default `dt.date.today().strftime('%Y%m%d')` on line
113 is evaluated once, when the `def` statement executes at module import, so
the request's end date is the import-time date whatever the date at call
time: here the module is imported on 20250601 and a call on 20250615 still
sends endDate 20250601. -/
theorem C3_end_date_default_bound_at_import :
    (∀ moduleImportDate : Nat,
        (bdhBuildRequest ["C US Equity"] ["PX_LAST"] 20250501 none "DAILY"
          moduleImportDate).endDate = moduleImportDate) ∧
    (bdhBuildRequest ["C US Equity"] ["PX_LAST"] 20250501 none "DAILY"
        20250601).endDate = 20250601 ∧
    (20250601 : Nat) ≠ 20250615 :=
  ⟨fun _ => rfl, rfl, by decide⟩

/-- C4: a `PARTIAL_RESPONSE` event never clears `bdh`'s loop flag; a
non-`RESPONSE` event steps the loop onward, a `RESPONSE` event terminates it
with the processed accumulator, and the loop terminates (on some finite
delivered stream) exactly when that stream contains a `RESPONSE` event. -/
theorem C4_bdh_loop_terminates_exactly_on_response :
    (∀ (resp : HistResponse) (e : Event HistMessage),
        e.eventType = PARTIAL_RESPONSE → (bdhStep resp e).2 = true) ∧
    (∀ (resp : HistResponse) (e : Event HistMessage)
        (rest : List (Event HistMessage)),
        e.eventType ≠ RESPONSE →
        bdhLoop resp (e :: rest) = bdhLoop (bdhStep resp e).1 rest) ∧
    (∀ (resp : HistResponse) (e : Event HistMessage)
        (rest : List (Event HistMessage)),
        e.eventType = RESPONSE →
        bdhLoop resp (e :: rest) = some (bdhStep resp e).1) ∧
    (∀ (resp : HistResponse) (events : List (Event HistMessage)),
        (bdhLoop resp events).isSome = true ↔
          ∃ e ∈ events, e.eventType = RESPONSE) := by
  refine ⟨?_, ?_, ?_, ?_⟩
  · intro resp e h
    simp only [bdhStep, h]
    decide
  · exact fun resp e rest h => bdhLoop_cons_other resp e rest h
  · exact fun resp e rest h => bdhLoop_cons_response resp e rest h
  · intro resp events
    induction events generalizing resp with
    | nil => simp [bdhLoop]
    | cons e rest ih =>
        by_cases he : e.eventType = RESPONSE
        · rw [bdhLoop_cons_response _ _ _ he]
          simp only [Option.isSome_some, true_iff]
          exact ⟨e, List.mem_cons_self _ _, he⟩
        · rw [bdhLoop_cons_other _ _ _ he, ih]
          constructor
          · rintro ⟨e2, hm, h2⟩
            exact ⟨e2, List.mem_cons_of_mem _ hm, h2⟩
          · rintro ⟨e2, hm, h2⟩
            rcases List.mem_cons.1 hm with rfl | hm2
            · exact absurd h2 he
            · exact ⟨e2, hm2, h2⟩

/-- Witness for C4 at concrete events: a `PARTIAL_RESPONSE` leaves the loop
flag set, and a `RESPONSE` at the head terminates the loop at once. -/
theorem C4_witness :
    ((bdhStep [] ⟨PARTIAL_RESPONSE, ⟨⟨"A", []⟩⟩, []⟩).2 = true) ∧
    (bdhLoop [] [⟨RESPONSE, ⟨⟨"A", []⟩⟩, []⟩] =
      some (bdhStep [] ⟨RESPONSE, ⟨⟨"A", []⟩⟩, []⟩).1) :=
  ⟨C4_bdh_loop_terminates_exactly_on_response.1 [] _ rfl,
    C4_bdh_loop_terminates_exactly_on_response.2.2.1 [] _ [] rfl⟩

/-- C5: on every run of `bdp` or `bdh` that exits at all - returning
normally, raising the domain error, or raising a vendor exception injected
at any call site - the trace contains exactly one `session.Stop()`. -/
theorem C5_session_stop_exactly_once :
    (∀ (c : Ctx) (sec fld : List String) (events : List (Event RefMessage))
        (n : Nat),
        (bdpM c sec fld events n).out ≠ PyOut.diverge →
        countStop ((bdpM c sec fld events n).trace) = 1) ∧
    (∀ (c : Ctx) (sec fld : List String) (sd : Nat) (ed : Option Nat)
        (per : String) (mid : Nat) (events : List (Event HistMessage))
        (n : Nat),
        (bdhM c sec fld sd ed per mid events n).out ≠ PyOut.diverge →
        countStop ((bdhM c sec fld sd ed per mid events n).trace) = 1) := by
  constructor
  · intro c sec fld events n h
    exact countStop_tryFinallyStop c _ n (noStop_bdpBodyM c sec fld events) h
  · intro c sec fld sd ed per mid events n h
    exact countStop_tryFinallyStop c _ n
      (noStop_bdhBodyM c sec fld sd ed per mid events) h

/-- Witness for C5: a `bdp` run killed by a vendor fault at call 2 and a
normally returning `bdh` run each perform exactly one `Stop`. -/
theorem C5_witness :
    ((bdpM ⟨some 2⟩ ["A"] ["F"] [] 0).out ≠ PyOut.diverge ∧
      countStop ((bdpM ⟨some 2⟩ ["A"] ["F"] [] 0).trace) = 1) ∧
    ((bdhM ⟨none⟩ ["A"] ["F"] 1 none "DAILY" 0
        [⟨RESPONSE, ⟨⟨"A", [[⟨"d", 2⟩, ⟨"F", 9⟩]]⟩⟩, []⟩] 0).out ≠
        PyOut.diverge ∧
      countStop ((bdhM ⟨none⟩ ["A"] ["F"] 1 none "DAILY" 0
        [⟨RESPONSE, ⟨⟨"A", [[⟨"d", 2⟩, ⟨"F", 9⟩]]⟩⟩, []⟩] 0).trace) = 1) :=
  ⟨⟨by decide, C5_session_stop_exactly_once.1 ⟨some 2⟩ ["A"] ["F"] [] 0
      (by decide)⟩,
    ⟨by decide, C5_session_stop_exactly_once.2 ⟨none⟩ ["A"] ["F"] 1 none
      "DAILY" 0 [⟨RESPONSE, ⟨⟨"A", [[⟨"d", 2⟩, ⟨"F", 9⟩]]⟩⟩, []⟩] 0
      (by decide)⟩⟩

/-- C6: in `bdp`'s poll loop any event whose tag is not `RESPONSE`
(`PARTIAL_RESPONSE` included) leaves the accumulator unchanged and the loop
flag set: it is drained and discarded entirely. -/
theorem C6_bdp_drains_non_response_events :
    (∀ (resp : RefResponse) (e : Event RefMessage),
        e.eventType ≠ RESPONSE → bdpStep resp e = (resp, true)) ∧
    (∀ (resp : RefResponse) (e : Event RefMessage)
        (rest : List (Event RefMessage)),
        e.eventType ≠ RESPONSE → bdpLoop resp (e :: rest) = bdpLoop resp rest) := by
  constructor
  · intro resp e h
    simp [bdpStep, h]
  · exact fun resp e rest h => bdpLoop_cons_other resp e rest h

/-- Witness for C6: a `PARTIAL_RESPONSE` event carrying data changes nothing
in the reference accumulator. -/
theorem C6_witness :
    (PARTIAL_RESPONSE ≠ RESPONSE) ∧
    bdpStep [("X", [("F", 1)])]
        ⟨PARTIAL_RESPONSE, ⟨[⟨"B", [⟨"G", 5⟩]⟩]⟩, []⟩ =
      ([("X", [("F", 1)])], true) :=
  ⟨by decide,
    C6_bdp_drains_non_response_events.1 [("X", [("F", 1)])]
      ⟨PARTIAL_RESPONSE, ⟨[⟨"B", [⟨"G", 5⟩]⟩]⟩, []⟩ (by decide)⟩

/-- C7 counterexample: requesting security "A" and field "F" while the
vendor's `RESPONSE` message names security "B" with field "G" succeeds and
returns a table whose column set is not the requested security set and whose
row set is not the requested field set: lines 84-97 assemble the table from
the names in the message, never from the arguments. -/
theorem C7_counterexample :
    bdp ["A"] ["F"] [⟨RESPONSE, ⟨[⟨"B", [⟨"G", 5⟩]⟩]⟩, []⟩] =
      Outcome.ok [("B", [("G", 5)])] ∧
    ("A" : String) ∈ ["A"] ∧
    ("A" : String) ∉ alistKeys [("B", [("G", (5 : Nat))])] ∧
    ("F" : String) ∈ ["F"] ∧
    ("F" : String) ∉ refIndex [("B", [("G", (5 : Nat))])] :=
  ⟨rfl, by decide, by decide, by decide, by decide⟩

/-- C7 amended: a successful `bdp` call returns a table whose column set
equals the set of security names in the terminating `RESPONSE` message's
securityData and - when those names are pairwise distinct - whose row set is
the union of those blocks' field-name sets; these equal the requested sets
exactly when the vendor echoes the request. -/
theorem C7_amended_axes_echo_response_message :
    ∀ (sec fld : List String) (events : List (Event RefMessage))
      (resp : RefResponse),
      bdp sec fld events = Outcome.ok resp →
      ∃ e ∈ events, e.eventType = RESPONSE ∧
        (∀ s, s ∈ alistKeys resp ↔
          s ∈ e.firstMessage.securityData.map RefSecurityData.security) ∧
        ((e.firstMessage.securityData.map RefSecurityData.security).Nodup →
          ∀ f, f ∈ refIndex resp ↔
            ∃ sd ∈ e.firstMessage.securityData,
              f ∈ sd.fieldData.map BElem.name) := by
  intro sec fld events resp h
  cases hL : bdpLoop [] events with
  | none => simp [bdp, hL] at h
  | some resp2 =>
      have hok : resp2 = resp := by
        cases he : (refIndex resp2).isEmpty with
        | false =>
            simp [bdp, hL, he] at h
            exact h
        | true => simp [bdp, hL, he] at h
      subst hok
      obtain ⟨e, hmem, hty, hr⟩ := bdpLoop_some_eq events [] resp2 hL
      refine ⟨e, hmem, hty, ?_, ?_⟩
      · intro s
        rw [hr]
        unfold processRefMessage
        rw [alistKeys_foldl_processRefSecurity]
        simp [alistKeys]
      · intro hnd f
        rw [hr]
        unfold processRefMessage
        rw [foldl_processRefSecurity_nodup _ _ hnd (by simp [alistKeys]),
          List.nil_append, mem_refIndex_iff]
        constructor
        · rintro ⟨p, hp, hf⟩
          obtain ⟨sd, hsd, rfl⟩ := List.mem_map.1 hp
          rcases (alistKeys_foldl_fields sd.fieldData [] f).1 hf with hf2 | hf2
          · simp [alistKeys] at hf2
          · exact ⟨sd, hsd, hf2⟩
        · rintro ⟨sd, hsd, hf⟩
          exact ⟨(sd.security,
              sd.fieldData.foldl (fun m x => alistSet m x.name x.value) []),
            List.mem_map_of_mem _ hsd,
            (alistKeys_foldl_fields sd.fieldData [] f).2 (Or.inr hf)⟩

/-- Witness for C7's amended statement: when the vendor does echo the
request, the axes coincide with the response message's names. -/
theorem C7_witness :
    bdp ["A"] ["F"] [⟨RESPONSE, ⟨[⟨"A", [⟨"F", 5⟩]⟩]⟩, []⟩] =
      Outcome.ok [("A", [("F", 5)])] ∧
    ∃ e ∈ ([⟨RESPONSE, ⟨[⟨"A", [⟨"F", 5⟩]⟩]⟩, []⟩] : List (Event RefMessage)),
      e.eventType = RESPONSE ∧
      (∀ s, s ∈ alistKeys [("A", [("F", (5 : Nat))])] ↔
        s ∈ e.firstMessage.securityData.map RefSecurityData.security) ∧
      ((e.firstMessage.securityData.map RefSecurityData.security).Nodup →
        ∀ f, f ∈ refIndex [("A", [("F", (5 : Nat))])] ↔
          ∃ sd ∈ e.firstMessage.securityData,
            f ∈ sd.fieldData.map BElem.name) :=
  ⟨rfl, C7_amended_axes_echo_response_message ["A"] ["F"] _ _ rfl⟩

/-- C8 counterexample: a successful call with requested range
[20020101 = 2, 3] whose vendor payload carries date 9 returns date 9 on the
date axis: lines 157-166 record every delivered date without filtering by
`startDate`/`endDate` (here scaled-down dates 2, 3 and 9 are used). -/
theorem C8_counterexample :
    bdh ["A"] ["PX"] 2 (some 3) "DAILY" 0
        [⟨RESPONSE, ⟨⟨"A", [[⟨"d", 9⟩, ⟨"PX", 1⟩]]⟩⟩, []⟩] =
      Outcome.ok [("A", [("PX", [(9, 1)])])] ∧
    (9 : Nat) ∈ histDates [("A", [("PX", [(9, 1)])])] ∧
    ¬ (9 : Nat) ≤ 3 :=
  ⟨rfl, by decide, by decide⟩

/-- C8 amended: the code records whatever dates the vendor delivers and
performs no filtering of its own; the returned date axis lies within
[start_date, endDate] exactly under the assumption that every delivered
fieldData entry's element-0 date does (which the vendor's contract for the
requested range promises, but this code does not check). -/
theorem C8_amended_dates_in_range_if_vendor_complies :
    ∀ (sec fld : List String) (start_date : Nat) (ed : Option Nat)
      (per : String) (mid : Nat) (events : List (Event HistMessage))
      (resp : HistResponse),
      bdh sec fld start_date ed per mid events = Outcome.ok resp →
      (∀ ev ∈ events, ∀ entry ∈ ev.firstMessage.securityData.fieldData,
          entryDateOK start_date
            (bdhBuildRequest sec fld start_date ed per mid).endDate entry =
            true) →
      ∀ d ∈ histDates resp,
        start_date ≤ d ∧
          d ≤ (bdhBuildRequest sec fld start_date ed per mid).endDate := by
  intro sec fld start_date ed per mid events resp h hok
  cases hL : bdhLoop [] events with
  | none => simp [bdh, hL] at h
  | some resp2 =>
      have heq : resp2 = resp := by
        cases resp2 with
        | nil => simp [bdh, hL] at h
        | cons p t =>
            cases hh : histHasData (p :: t) with
            | false => simp [bdh, hL, hh] at h
            | true =>
                simp [bdh, hL, hh] at h
                exact h
      subst heq
      exact bdhLoop_dates_bounded _ _ events [] resp2 hL hok
        (by intro d hd; simp [histDates] at hd)

/-- Witness for C8's amended statement at a vendor stream whose only
delivered date 2 lies within the requested range [2, 3]. -/
theorem C8_witness :
    bdh ["A"] ["PX"] 2 (some 3) "DAILY" 0
        [⟨RESPONSE, ⟨⟨"A", [[⟨"d", 2⟩, ⟨"PX", 1⟩]]⟩⟩, []⟩] =
      Outcome.ok [("A", [("PX", [(2, 1)])])] ∧
    (∀ ev ∈ ([⟨RESPONSE, ⟨⟨"A", [[⟨"d", 2⟩, ⟨"PX", 1⟩]]⟩⟩, []⟩] :
        List (Event HistMessage)),
      ∀ entry ∈ ev.firstMessage.securityData.fieldData,
        entryDateOK 2 (bdhBuildRequest ["A"] ["PX"] 2 (some 3) "DAILY"
          0).endDate entry = true) ∧
    ∀ d ∈ histDates [("A", [("PX", [(2, 1)])])],
      2 ≤ d ∧ d ≤ (bdhBuildRequest ["A"] ["PX"] 2 (some 3) "DAILY" 0).endDate :=
  ⟨rfl, by decide,
    C8_amended_dates_in_range_if_vendor_complies ["A"] ["PX"] 2 (some 3)
      "DAILY" 0 [⟨RESPONSE, ⟨⟨"A", [[⟨"d", 2⟩, ⟨"PX", 1⟩]]⟩⟩, []⟩] _ rfl
      (by decide)⟩

/-- C9: both poll loops extract exactly the first message of each fetched
event (`iterator.Next(); message = iterator.Message`): deleting every later
message of every event changes neither function's outcome. -/
theorem C9_only_first_message_of_each_event_processed :
    (∀ (sec fld : List String) (events : List (Event RefMessage)),
        bdp sec fld (events.map eraseRest) = bdp sec fld events) ∧
    (∀ (sec fld : List String) (sd : Nat) (ed : Option Nat) (per : String)
        (mid : Nat) (events : List (Event HistMessage)),
        bdh sec fld sd ed per mid (events.map eraseRest) =
          bdh sec fld sd ed per mid events) := by
  constructor
  · intro sec fld events
    unfold bdp
    rw [bdpLoop_map_eraseRest]
  · intro sec fld sd ed per mid events
    unfold bdh
    rw [bdhLoop_map_eraseRest]

/-- C10: in `bdh`'s extractor each fieldData entry's element 0 is read as
the date and only elements `1 .. NumElements-1` are recorded
(`for n in range(1, fields.NumElements)`): a one-element entry contributes
nothing, and any datum the entry adds sits at the element-0 date under the
name of one of the later elements. -/
theorem C10_element_zero_is_date_rest_are_fields :
    (∀ (fmap : List (String × List (Nat × Nat))) (d : BElem),
        processHistEntry fmap [d] = fmap) ∧
    (∀ (fmap : List (String × List (Nat × Nat))) (entry : HistEntry)
        (fname : String) (date : Nat),
        alistGet2 (processHistEntry fmap entry) fname date ≠
          alistGet2 fmap fname date →
        ∃ d0 fs, entry = d0 :: fs ∧ date = d0.value ∧
          fname ∈ fs.map BElem.name) := by
  constructor
  · intro fmap d
    rfl
  · intro fmap entry fname date h
    cases entry with
    | nil => exact absurd rfl h
    | cons d0 fs =>
        obtain ⟨hd, hm⟩ := alistGet2_foldl_setFieldDate d0.value fs fmap fname date h
        exact ⟨d0, fs, rfl, hd, hm⟩

/-- Witness for C10: the entry `[date 5, PX 7]` records `7` under field "PX"
at date `5`, and the change is located exactly as the theorem states. -/
theorem C10_witness :
    alistGet2 (processHistEntry [] [⟨"d", 5⟩, ⟨"PX", 7⟩]) "PX" 5 ≠
      alistGet2 [] "PX" 5 ∧
    ∃ d0 fs, ([⟨"d", 5⟩, ⟨"PX", 7⟩] : HistEntry) = d0 :: fs ∧
      5 = d0.value ∧ "PX" ∈ fs.map BElem.name :=
  ⟨by decide,
    C10_element_zero_is_date_rest_are_fields.2 [] [⟨"d", 5⟩, ⟨"PX", 7⟩]
      "PX" 5 (by decide)⟩

end Bloomberg
